import Mathlib

/-!
Verification development for the ironcalc-sheets-poc workbook-preparation
scripts.  The Python sources under `scripts/` are shallowly embedded as
executable Lean definitions over `List Char` strings:

* `parse_range_ref`, `get_range_type` and the role-classification loop of
  `scripts/explore_xlsx.py`;
* the array-formula normalization loop of `scripts/remove_array_flags.py`;
* `label_to_name` and the input-scrubbing / named-range registration loop of
  `scripts/clean_dev_xlsx.py`.

Cell values are modelled as a tagged variant mirroring what openpyxl hands the
scripts: `None`, a string, an int, a bool, or an `ArrayFormula` object.
Python string operations (`re.match`, `str.split`, `str.strip`, `str.islower`,
`str.capitalize`, truthiness, `str()` rendering) are reproduced for the ASCII
character range the scripts traffic in.
-/

/-- ASCII uppercase letter, the character class `[A-Z]` used by
`parse_range_ref`'s regular expression (code points 65-90). -/
def isAsciiUpper (c : Char) : Bool := 65 ≤ c.toNat && c.toNat ≤ 90

/-- ASCII lowercase letter `[a-z]` (code points 97-122). -/
def isAsciiLower (c : Char) : Bool := 97 ≤ c.toNat && c.toNat ≤ 122

/-- ASCII letter `[a-zA-Z]`, Python's `str.isalpha` on the ASCII range. -/
def isAsciiAlpha (c : Char) : Bool := isAsciiUpper c || isAsciiLower c

/-- ASCII digit `[0-9]` (code points 48-57). -/
def isAsciiDigit (c : Char) : Bool := 48 ≤ c.toNat && c.toNat ≤ 57

/-- Python `\s` on the ASCII range: space, tab, newline, carriage return,
vertical tab, form feed. -/
def pyIsSpace (c : Char) : Bool :=
  c = ' ' || c = '\t' || c = '\n' || c = '\r' || c = '\x0b' || c = '\x0c'

/-- Uppercase an ASCII character, Python `str.upper` on one character;
characters other than lowercase letters are unchanged. -/
def asciiUpper (c : Char) : Char :=
  if isAsciiLower c then Char.ofNat (c.toNat - 32) else c

/-- Lowercase an ASCII character, Python `str.lower` on one character;
characters other than uppercase letters are unchanged. -/
def asciiLower (c : Char) : Char :=
  if isAsciiUpper c then Char.ofNat (c.toNat + 32) else c

/-- The decimal digit character for `n % 10` (48 is the code point of
`0`). -/
def digitChar10 (n : Nat) : Char := Char.ofNat (48 + n % 10)

/-- Fuelled decimal digit expansion of a natural number (most significant
digit first); empty on zero.  Fuel `n` is always sufficient for value `n`. -/
def natDigitsF : Nat → Nat → List Char
  | 0, _ => []
  | fuel + 1, n => if n = 0 then [] else natDigitsF fuel (n / 10) ++ [digitChar10 n]

/-- Decimal rendering of a natural number, Python `str(n)` for `n ≥ 0`. -/
def natRepr (n : Nat) : List Char :=
  if n = 0 then ['0'] else natDigitsF n n

/-- Decimal rendering of an integer, Python `str(n)`. -/
def intRepr (n : Int) : List Char :=
  if n < 0 then '-' :: natRepr n.natAbs else natRepr n.toNat

/-- Python `s.startswith("=")`: nonempty and the first character is `=`. -/
def startsWithEq : List Char → Bool
  | [] => false
  | c :: _ => c = '='

/-- Numeric value of a nonempty digit string, `int(s)` for the digit group
captured by `parse_range_ref`'s regular expression. -/
def natOfDigits (ds : List Char) : Nat :=
  ds.foldl (fun a c => a * 10 + (c.toNat - '0'.toNat)) 0

/-- Python `s.split(sep)` for a one-character separator: splits on every
occurrence and keeps empty fields (so the result is always nonempty). -/
def splitOnChar (sep : Char) : List Char → List (List Char)
  | [] => [[]]
  | c :: cs =>
    if c = sep then [] :: splitOnChar sep cs
    else
      match splitOnChar sep cs with
      | [] => [[c]]
      | w :: ws => (c :: w) :: ws

/-- Python `s.strip("'")`: remove every leading and trailing single-quote. -/
def stripQuotes (cs : List Char) : List Char :=
  ((cs.dropWhile (· = '\'')).reverse.dropWhile (· = '\'')).reverse

/-- A cell value as openpyxl presents it to the scripts with
`data_only=False`: Python `None` for an empty cell, a string (which is a
standard formula exactly when it starts with `=`), an int, a bool, or an
`openpyxl.worksheet.formula.ArrayFormula` object carrying the formula text
(without the leading `=`) and its array extent. -/
inductive CellValue where
  | empty : CellValue
  | str : List Char → CellValue
  | num : Int → CellValue
  | boolV : Bool → CellValue
  | arrayFormula : List Char → List Char → CellValue
deriving DecidableEq

/-- Python truthiness of a cell value: `None`, `""`, `0` and `False` are
falsy; every other value, including any `ArrayFormula` object, is truthy. -/
def truthy : CellValue → Bool
  | .empty => false
  | .str s => s ≠ []
  | .num n => n ≠ 0
  | .boolV b => b
  | .arrayFormula _ _ => true

/-- Python `str(value)`: a string renders as itself, numbers render in
decimal, bools as `True`/`False`, `None` as `None`, and an `ArrayFormula`
object (which defines no `str` conversion of its own) as its default object
representation, which starts with `<`. -/
def pyStr : CellValue → List Char
  | .empty => ['N', 'o', 'n', 'e']
  | .str s => s
  | .num n => intRepr n
  | .boolV true => ['T', 'r', 'u', 'e']
  | .boolV false => ['F', 'a', 'l', 's', 'e']
  | .arrayFormula _ _ => ['<', 'A', 'r', 'r', 'a', 'y', 'F', 'o', 'r', 'm', 'u', 'l', 'a', '>']

/-- The formula probe used throughout the scripts:
`str(cell.value).startswith("=") if cell.value else False`. -/
def has_formula (v : CellValue) : Bool :=
  truthy v && startsWithEq (pyStr v)

/-- A parsed region reference, the dictionary built by `parse_range_ref`:
optional sheet name, start/end column letter groups, start/end row numbers,
and the range flag. -/
structure ParsedRef where
  sheet : Option (List Char)
  start_col : List Char
  start_row : Nat
  end_col : List Char
  end_row : Nat
  is_range : Bool
deriving DecidableEq

/-- The regular-expression probe `re.match(r"([A-Z]+)(\d+)", s)`: an anchored
match of one-or-more uppercase letters followed by one-or-more digits, with
any remaining characters ignored.  Returns the letter group and the numeric
value of the digit group. -/
def matchColRow (cs : List Char) : Option (List Char × Nat) :=
  let letters := cs.takeWhile isAsciiUpper
  let rest := cs.dropWhile isAsciiUpper
  let digits := rest.takeWhile isAsciiDigit
  if letters = [] ∨ digits = [] then none else some (letters, natOfDigits digits)

/-- `parse_range_ref` from `scripts/explore_xlsx.py`: strip `$`, split on
`!` (a two-part split yields a quoted-stripped sheet name, anything else
leaves the sheet `None` and takes the first part), then match either a
two-cell `A1:B2` form (setting `is_range`) or a single-cell form (duplicating
the cell as both start and end).  `None` models both the source's `return
None` and the uncaught `ValueError` a multi-colon range would raise. -/
def parse_range_ref (raw : List Char) : Option ParsedRef :=
  let ref := raw.filter (· ≠ '$')
  let parts := splitOnChar '!' ref
  let sheet_ref : Option (List Char) :=
    match parts with
    | [a, _] => some (stripQuotes a)
    | _ => none
  let cell_range : List Char :=
    match parts with
    | [_, b] => b
    | _ => parts.headD []
  if cell_range.contains ':' then
    match splitOnChar ':' cell_range with
    | [s, e] =>
      match matchColRow s, matchColRow e with
      | some (sc, sr), some (ec, er) =>
        some ⟨sheet_ref, sc, sr, ec, er, true⟩
      | _, _ => none
    | _ => none
  else
    match matchColRow cell_range with
    | some (c, r) => some ⟨sheet_ref, c, r, c, r, false⟩
    | none => none

/-- Spreadsheet base-26 column index, `column_index_from_string`:
A=1 … Z=26, AA=27, …. -/
def colIndex (cs : List Char) : Nat :=
  cs.foldl (fun a c => a * 26 + (c.toNat - 'A'.toNat + 1)) 0

/-- The four region shapes reported by `get_range_type`. -/
inductive RangeType where
  | SINGLE : RangeType
  | HORIZONTAL : RangeType
  | VERTICAL : RangeType
  | TABLE : RangeType
deriving DecidableEq

/-- Row count of a parsed range, `end_row - start_row + 1` (Python int
arithmetic, so possibly nonpositive on an inverted range). -/
def rowCount (p : ParsedRef) : Int :=
  (p.end_row : Int) - (p.start_row : Int) + 1

/-- Column count of a parsed range, computed through the base-26 column
index. -/
def colCount (p : ParsedRef) : Int :=
  (colIndex p.end_col : Int) - (colIndex p.start_col : Int) + 1

/-- `get_range_type` from `scripts/explore_xlsx.py`: `None` or a non-range
parse is SINGLE; otherwise the row/column counts pick HORIZONTAL, VERTICAL or
TABLE, with SINGLE as the fall-through. -/
def get_range_type : Option ParsedRef → RangeType
  | none => .SINGLE
  | some p =>
    if !p.is_range then .SINGLE
    else if rowCount p = 1 ∧ colCount p > 1 then .HORIZONTAL
    else if rowCount p > 1 ∧ colCount p = 1 then .VERTICAL
    else if rowCount p > 1 ∧ colCount p > 1 then .TABLE
    else .SINGLE

/-- The three region roles reported by the classification loops. -/
inductive RegionRole where
  | INPUT : RegionRole
  | OUTPUT : RegionRole
  | UNKNOWN : RegionRole
deriving DecidableEq

/-- A workbook as the classification loop sees it: a partial map from sheet
name to a cell grid indexed by (row, column). -/
structure Workbook where
  sheets : List Char → Option (Nat → Nat → CellValue)

/-- The probe performed inside the classification loop's `try` block:
`ws = wb[parsed["sheet"]]` followed by `ws.cell(row=start_row,
column=column_index_from_string(start_col))`.  It fails (raising `KeyError`
or `ValueError`, caught by the surrounding `except`) when the sheet field is
`None`, when the sheet name is not in the workbook, or when the row or column
index is below 1. -/
def probeStart (wb : Workbook) (p : ParsedRef) : Option CellValue :=
  match p.sheet with
  | none => none
  | some name =>
    match wb.sheets name with
    | none => none
    | some ws =>
      if 1 ≤ p.start_row ∧ 1 ≤ colIndex p.start_col then
        some (ws p.start_row (colIndex p.start_col))
      else none

/-- The role-classification loop of `scripts/explore_xlsx.py` (lines 266-276):
probe the region's start cell inside a `try`; on success classify OUTPUT when
`str(cell.value).startswith("=") if cell.value else False`, INPUT otherwise;
on any exception classify UNKNOWN. -/
def classify_region (wb : Workbook) (p : ParsedRef) : RegionRole :=
  match probeStart wb p with
  | none => .UNKNOWN
  | some v => if has_formula v then .OUTPUT else .INPUT

/-- A cell value that holds a *standard* formula: a string value prefixed
with `=` (the container interface's "standard formula string").  This is
deliberately narrower than "holds a formula": a legacy array-formula value is
a formula too (see `specHoldsAnyFormula`), but it is not a plain string, and
the scripts' string-prefix probe misses it — the false-negative class the
spec's design notes call out.  Role classification is characterized against
this narrower predicate; the C1 counterexample below exhibits the gap. -/
def specHoldsStandardFormula : CellValue → Bool
  | .str s => startsWithEq s
  | _ => false

/-- A cell value that holds a formula in the data model's full sense: a
standard formula string or a legacy array-formula value (the spec's
`ArrayFormulaCell` "represents a legacy array-entered formula", and its
glossary calls a CSE entry a formula). -/
def specHoldsAnyFormula : CellValue → Bool
  | .str s => startsWithEq s
  | .arrayFormula _ _ => true
  | _ => false

/-- Role classification as the code actually behaves, as a function of the
probed start cell alone: UNKNOWN when the probe cell cannot be resolved,
OUTPUT when it holds a *standard* formula string, INPUT otherwise — so a
cell holding an array-formula-typed value is classified INPUT even though it
holds a formula. -/
def specRole : Option CellValue → RegionRole
  | none => .UNKNOWN
  | some v => if specHoldsStandardFormula v then .OUTPUT else .INPUT

/-- A cell with its non-value properties, for the frame contract of the
array-formula normalizer: number format, style, comment, merged-cell
membership. -/
structure Cell where
  value : CellValue
  numFmt : List Char
  style : Nat
  comment : Option (List Char)
  merged : Bool
deriving DecidableEq

/-- A workbook for the normalizer: a total map from (sheet name, cell
address) to a cell.  The hard-coded target sheets of
`scripts/remove_array_flags.py` are assumed present (a missing sheet would
abort the script with an uncaught `KeyError`, outside the claims). -/
def Wb2 : Type := List Char × List Char → Cell

/-- Skip classification for a normalizer target that is not an
`ArrayFormula`: the "Already regular" branch (a truthy value whose string
form starts with `=`) or the residual "Checking" branch. -/
inductive SkipReason where
  | ALREADY_STANDARD : SkipReason
  | OTHER : SkipReason
deriving DecidableEq

/-- The accumulating state of the normalization loop: the workbook plus the
`fixed_cells` (converted) and skipped lists. -/
structure NormState where
  wb : Wb2
  converted : List (List Char × List Char)
  skipped : List ((List Char × List Char) × SkipReason)

/-- One iteration of the loop of `scripts/remove_array_flags.py`: if the
target cell's value is an `ArrayFormula`, rewrite the value to `"=" +
formula_text` (touching no other cell property) and record the address as
converted; else if the value is truthy and its string form starts with `=`,
record it skipped as already standard; else record it skipped otherwise.  In
the non-array branches the workbook is untouched. -/
def normStep (st : NormState) (t : List Char × List Char) : NormState :=
  let c := st.wb t
  match c.value with
  | .arrayFormula txt _ =>
    { wb := fun k => if k = t then { c with value := .str ('=' :: txt) } else st.wb k,
      converted := st.converted ++ [t],
      skipped := st.skipped }
  | v =>
    if truthy v && startsWithEq (pyStr v) then
      { st with skipped := st.skipped ++ [(t, .ALREADY_STANDARD)] }
    else
      { st with skipped := st.skipped ++ [(t, .OTHER)] }

/-- The full normalization pass over an explicit target-cell list (the
spec's `normalize`; renamed here because `normalize` is taken by the ambient
library). -/
def normalizeCells (wb : Wb2) (cells : List (List Char × List Char)) : NormState :=
  cells.foldl normStep ⟨wb, [], []⟩

/-- The workbook cell at `a` holds a standard formula: a string value
starting with `=`. -/
def stdFormulaAt (wb : Wb2) (a : List Char × List Char) : Prop :=
  ∃ s, (wb a).value = .str ('=' :: s)

/-- One attempt of the regular expression `\s*\([^)]*\)` at the head of the
string: a (possibly empty) whitespace run, an opening parenthesis, a run of
non-`)` characters, and a closing parenthesis.  On success returns the
remainder after the match; `none` when the pattern does not match here. -/
def matchWsParen (cs : List Char) : Option (List Char) :=
  match cs.dropWhile pyIsSpace with
  | [] => none
  | c :: rest =>
    if c = '(' then
      match rest.dropWhile (· ≠ ')') with
      | [] => none
      | _ :: rest2 => some rest2
    else none

/-- Fuelled left-to-right scan implementing
`re.sub(r'\s*\([^)]*\)', '', label)`: at each position, remove a match of the
pattern if one starts here, else keep the character and move on.  Fuel equal
to the string length is always sufficient. -/
def stripParensF : Nat → List Char → List Char
  | _, [] => []
  | 0, cs => cs
  | fuel + 1, c :: cs =>
    match matchWsParen (c :: cs) with
    | some rest => stripParensF fuel rest
    | none => c :: stripParensF fuel cs

/-- Step (1) of `label_to_name`: remove every parenthesized substring
together with any whitespace immediately before it. -/
def stripParens (cs : List Char) : List Char :=
  stripParensF cs.length cs

/-- The character class kept by step (2) of `label_to_name`,
`re.sub(r'[^a-zA-Z0-9_\s]', '', name)`: letters, digits, underscore,
whitespace. -/
def keepChar (c : Char) : Bool :=
  isAsciiAlpha c || isAsciiDigit c || c = '_' || pyIsSpace c

/-- Python `s.split()` with no separator: words are maximal nonempty runs of
non-whitespace characters; leading, trailing and repeated whitespace produce
no empty words.  `acc` accumulates the current word reversed. -/
def splitWsAux : List Char → List Char → List (List Char)
  | [], acc => if acc = [] then [] else [acc.reverse]
  | c :: cs, acc =>
    if pyIsSpace c then
      if acc = [] then splitWsAux cs [] else acc.reverse :: splitWsAux cs []
    else splitWsAux cs (c :: acc)

/-- Python `s.split()` with no separator. -/
def splitWs (cs : List Char) : List (List Char) :=
  splitWsAux cs []

/-- Python `str.capitalize` on the ASCII range: uppercase the first
character, lowercase the rest. -/
def pyCapitalize : List Char → List Char
  | [] => []
  | c :: cs => asciiUpper c :: cs.map asciiLower

/-- Python `str.islower` on the ASCII range: at least one cased character
and no uppercase one. -/
def pyIsLower (cs : List Char) : Bool :=
  cs.any isAsciiLower && !cs.any isAsciiUpper

/-- One word of step (3) of `label_to_name`:
`word.capitalize() if word.islower() else word`. -/
def processWord (w : List Char) : List Char :=
  if pyIsLower w then pyCapitalize w else w

/-- `label_to_name` from `scripts/clean_dev_xlsx.py` on the character-list
level: `None` on a falsy (empty) label; otherwise strip parenthesized
substrings, drop characters outside `[a-zA-Z0-9_\s]`, split on whitespace,
capitalize each all-lowercase word and concatenate, prefix an underscore when
the result is nonempty and starts with neither a letter nor an underscore,
and finally return `None` when the result is empty. -/
def labelToNameCore (label : List Char) : Option (List Char) :=
  if label = [] then none
  else
    let n1 := stripParens label
    let n2 := n1.filter keepChar
    let n3 := ((splitWs n2).map processWord).flatten
    let n4 :=
      match n3 with
      | [] => ([] : List Char)
      | c :: _ => if isAsciiAlpha c || c = '_' then n3 else '_' :: n3
    if n4 = [] then none else some n4

/-- `label_to_name` over Lean strings. -/
def label_to_name (label : String) : Option String :=
  (labelToNameCore label.toList).map (fun l => String.mk l)

/-- The scrubber's formula test on the column-D value cell:
`isinstance(d_val, str) and d_val.startswith('=')`. -/
def is_formula_d : CellValue → Bool
  | .str s => startsWithEq s
  | _ => false

/-- The reference string `'Input'!$D$<row>` built for each named range by
`scripts/clean_dev_xlsx.py`. -/
def mkRef (row : Nat) : List Char :=
  ['\'', 'I', 'n', 'p', 'u', 't', '\'', '!', '$', 'D', '$'] ++ natRepr row

/-- The accumulating state of the `clean_dev_xlsx` main loop: the Input
sheet's column D (value cells by row), the workbook's defined-name table as
(name, reference) pairs, and the three report lists `cleared_cells`,
`skipped_formulas` and `named_ranges`. -/
structure ScrubState where
  dcol : Nat → CellValue
  defined : List (List Char × List Char)
  cleared : List (Nat × List Char × CellValue)
  skipped_formulas : List (Nat × List Char × CellValue)
  named_ranges : List (List Char × List Char × List Char)

/-- One iteration of the `clean_dev_xlsx` main loop for a row.  `ccol` gives
column C's label cell (`none` for an empty cell; the Input sheet's labels are
text, a non-string label would abort the script inside `re.sub`).  A row with
no label, or whose label synthesizes no name, is skipped entirely.  Otherwise:
a formula in column D (a string starting with `=`) is recorded under
`skipped_formulas` and left untouched; a non-`None` non-formula value is
recorded under `cleared` and the cell set to `None`; a `None` value cell is
left as is.  Then the named-range registration runs: an exact match against
the defined-name table's keys skips registration, otherwise the (name,
`'Input'!$D$row`) pair is appended and reported under `named_ranges`. -/
def processRow (ccol : Nat → Option (List Char)) (st : ScrubState) (row : Nat) :
    ScrubState :=
  match ccol row with
  | none => st
  | some c_val =>
    match labelToNameCore c_val with
    | none => st
    | some range_name =>
      let d_val := st.dcol row
      let is_f : Bool := is_formula_d d_val
      let st1 :=
        if is_f then
          { st with skipped_formulas := st.skipped_formulas ++ [(row, c_val, d_val)] }
        else if d_val ≠ .empty then
          { st with
            cleared := st.cleared ++ [(row, c_val, d_val)],
            dcol := fun r => if r = row then .empty else st.dcol r }
        else st
      if (st1.defined.map Prod.fst).contains range_name then st1
      else
        { st1 with
          defined := st1.defined ++ [(range_name, mkRef row)],
          named_ranges := st1.named_ranges ++ [(range_name, mkRef row, c_val)] }

/-- The `clean_dev_xlsx` main loop, `for row in range(1, 100)`. -/
def scrub (ccol : Nat → Option (List Char)) (init : ScrubState) : ScrubState :=
  (List.range' 1 99).foldl (processRow ccol) init

/-- Region shape as a function of the dimensions alone, following the spec's
table: rows=1,cols=1 is SINGLE; rows=1,cols>1 is HORIZONTAL; rows>1,cols=1 is
VERTICAL; rows>1,cols>1 is TABLE. -/
def specShape (r c : Int) : RangeType :=
  if r = 1 ∧ c = 1 then .SINGLE
  else if r = 1 ∧ c > 1 then .HORIZONTAL
  else if r > 1 ∧ c = 1 then .VERTICAL
  else .TABLE

/-- The cell value is an `ArrayFormula` object, openpyxl's
`isinstance(cell.value, ArrayFormula)`. -/
def isArrayVal : CellValue → Bool
  | .arrayFormula _ _ => true
  | _ => false

/-- The workbook-only part of one normalization step: rewrite the target cell
when its value is an `ArrayFormula`, else leave the workbook alone. -/
def stepWb (wb : Wb2) (t : List Char × List Char) : Wb2 :=
  match (wb t).value with
  | .arrayFormula txt _ =>
    fun k => if k = t then { wb t with value := .str ('=' :: txt) } else wb k
  | _ => wb

/-- Characters that can appear in a synthesized identifier: ASCII letters,
digits, underscore. -/
def goodChar (c : Char) : Bool :=
  isAsciiAlpha c || isAsciiDigit c || c = '_'

/-! ## General helper lemmas -/

/-- `Char.ofNat` round-trips through `toNat` on valid code points below the
surrogate range. -/
theorem charToNat_ofNat (n : Nat) (h : n < 55296) : (Char.ofNat n).toNat = n := by
  have hv : n.isValidChar := Or.inl h
  rw [Char.ofNat, dif_pos hv]
  rfl

/-- Uppercasing a lowercase ASCII letter yields an uppercase ASCII letter. -/
theorem isAsciiUpper_asciiUpper (c : Char) (h : isAsciiLower c = true) :
    isAsciiUpper (asciiUpper c) = true := by
  have hn : 97 ≤ c.toNat ∧ c.toNat ≤ 122 := by
    simpa [isAsciiLower, Bool.and_eq_true, decide_eq_true_eq] using h
  have hv : c.toNat - 32 < 55296 := by omega
  simp only [asciiUpper, h, if_true]
  simp only [isAsciiUpper, Bool.and_eq_true, decide_eq_true_eq, charToNat_ofNat _ hv]
  omega

/-- Lowercasing an uppercase ASCII letter yields a lowercase ASCII letter. -/
theorem isAsciiLower_asciiLower (c : Char) (h : isAsciiUpper c = true) :
    isAsciiLower (asciiLower c) = true := by
  have hn : 65 ≤ c.toNat ∧ c.toNat ≤ 90 := by
    simpa [isAsciiUpper, Bool.and_eq_true, decide_eq_true_eq] using h
  have hv : c.toNat + 32 < 55296 := by omega
  simp only [asciiLower, h, if_true]
  simp only [isAsciiLower, Bool.and_eq_true, decide_eq_true_eq, charToNat_ofNat _ hv]
  omega

/-- `asciiUpper` fixes every character that is not a lowercase letter. -/
theorem asciiUpper_of_not_lower (c : Char) (h : isAsciiLower c = false) :
    asciiUpper c = c := by
  simp [asciiUpper, h]

/-- `asciiLower` fixes every character that is not an uppercase letter. -/
theorem asciiLower_of_not_upper (c : Char) (h : isAsciiUpper c = false) :
    asciiLower c = c := by
  simp [asciiLower, h]

/-- An uppercase ASCII letter is not a lowercase one. -/
theorem not_lower_of_upper (c : Char) (h : isAsciiUpper c = true) :
    isAsciiLower c = false := by
  simp only [isAsciiUpper, Bool.and_eq_true, decide_eq_true_eq] at h
  simp only [isAsciiLower, Bool.and_eq_true, decide_eq_true_eq]
  simp only [Bool.and_eq_false_iff, decide_eq_false_iff_not]
  omega

/-- An ASCII digit is not an uppercase letter. -/
theorem not_upper_of_digit (c : Char) (h : isAsciiDigit c = true) :
    isAsciiUpper c = false := by
  simp only [isAsciiDigit, Bool.and_eq_true, decide_eq_true_eq] at h
  simp only [isAsciiUpper]
  simp only [Bool.and_eq_false_iff, decide_eq_false_iff_not]
  omega

/-! ## C5: identifier synthesis reference cases -/

/-- C5: identifier synthesis satisfies the spec's four reference cases (with
an empty existing-name set, collision handling being the caller's job in the
source): `"FICO Score"` gives `"FICOScore"`, `"Loan Amount (USD)"` gives
`"LoanAmount"` (parenthesized substring stripped), `""` gives none, and
`"2nd Lien"` gives `"_2ndLien"` (digit-leading result underscore-prefixed). -/
theorem c5_label_to_name_reference_cases :
    label_to_name "FICO Score" = some "FICOScore" ∧
    label_to_name "Loan Amount (USD)" = some "LoanAmount" ∧
    label_to_name "" = none ∧
    label_to_name "2nd Lien" = some "_2ndLien" :=
  ⟨rfl, rfl, rfl, rfl⟩

/-! ## C7: shape classification as a total function of the dimensions -/

/-- C7: for a parsed range with at least one row and one column,
`get_range_type` agrees with the spec's dimension table (SINGLE for 1×1,
HORIZONTAL for one row and several columns, VERTICAL for several rows and one
column, TABLE otherwise), without failing; in particular a 1×1 region written
with a colon classifies SINGLE, exactly like the same region written without
one. -/
theorem c7_shape_total_function (p : ParsedRef) (hp : p.is_range = true)
    (hr : 1 ≤ rowCount p) (hc : 1 ≤ colCount p) :
    get_range_type (some p) = specShape (rowCount p) (colCount p) ∧
    (rowCount p = 1 → colCount p = 1 →
      get_range_type (some p) = RangeType.SINGLE ∧
      get_range_type (some { p with is_range := false }) = RangeType.SINGLE) := by
  constructor
  · simp only [get_range_type, hp, Bool.not_true, Bool.false_eq_true, if_false, specShape]
    split_ifs <;> first | rfl | (exfalso; omega)
  · intro h1 h2
    constructor
    · simp only [get_range_type, hp, Bool.not_true, Bool.false_eq_true, if_false]
      split_ifs <;> first | rfl | (exfalso; omega)
    · rfl

/-- Witness for C7 at the 1×1 colon range `A1:A1`. -/
theorem c7_shape_total_function_witness :
    get_range_type (some ⟨none, ['A'], 1, ['A'], 1, true⟩) =
      specShape (rowCount ⟨none, ['A'], 1, ['A'], 1, true⟩)
        (colCount ⟨none, ['A'], 1, ['A'], 1, true⟩) ∧
    (rowCount (⟨none, ['A'], 1, ['A'], 1, true⟩ : ParsedRef) = 1 →
      colCount (⟨none, ['A'], 1, ['A'], 1, true⟩ : ParsedRef) = 1 →
      get_range_type (some ⟨none, ['A'], 1, ['A'], 1, true⟩) = RangeType.SINGLE ∧
      get_range_type (some ⟨none, ['A'], 1, ['A'], 1, false⟩) = RangeType.SINGLE) :=
  c7_shape_total_function ⟨none, ['A'], 1, ['A'], 1, true⟩ rfl (by decide) (by decide)

/-- `splitOnChar` never returns an empty list of fields. -/
theorem splitOnChar_ne_nil (sep : Char) (l : List Char) : splitOnChar sep l ≠ [] := by
  cases l with
  | nil => simp [splitOnChar]
  | cons c cs =>
    simp only [splitOnChar]
    split_ifs
    · simp
    · cases h : splitOnChar sep cs <;> simp

/-- Splitting a string that does not contain the separator yields the single
field equal to the whole string. -/
theorem splitOnChar_of_not_mem (sep : Char) (l : List Char) (h : sep ∉ l) :
    splitOnChar sep l = [l] := by
  induction l with
  | nil => rfl
  | cons c cs ih =>
    have hc : ¬(c = sep) := fun e => h (by simp [e])
    have hcs : sep ∉ cs := fun hm => h (List.mem_cons_of_mem _ hm)
    simp only [splitOnChar, if_neg hc, ih hcs]

/-- Splitting around the first separator occurrence peels off the prefix. -/
theorem splitOnChar_append (sep : Char) (a b : List Char) (h : sep ∉ a) :
    splitOnChar sep (a ++ sep :: b) = a :: splitOnChar sep b := by
  induction a with
  | nil => simp [splitOnChar]
  | cons c cs ih =>
    have hc : ¬(c = sep) := fun e => h (by simp [e])
    have hcs : sep ∉ cs := fun hm => h (List.mem_cons_of_mem _ hm)
    simp only [List.cons_append, splitOnChar, if_neg hc]
    rw [show cs.append (sep :: b) = cs ++ sep :: b from rfl, ih hcs]

/-- `takeWhile` walks through a prefix on which the predicate holds. -/
theorem takeWhile_append_all (p : Char → Bool) (a b : List Char)
    (h : ∀ c ∈ a, p c = true) : (a ++ b).takeWhile p = a ++ b.takeWhile p := by
  induction a with
  | nil => simp
  | cons c cs ih =>
    have hc : p c = true := h c (by simp)
    simp [List.takeWhile_cons, hc, ih (fun d hd => h d (List.mem_cons_of_mem _ hd))]

/-- `dropWhile` skips over a prefix on which the predicate holds. -/
theorem dropWhile_append_all (p : Char → Bool) (a b : List Char)
    (h : ∀ c ∈ a, p c = true) : (a ++ b).dropWhile p = b.dropWhile p := by
  induction a with
  | nil => simp
  | cons c cs ih =>
    have hc : p c = true := h c (by simp)
    simp [List.dropWhile_cons, hc, ih (fun d hd => h d (List.mem_cons_of_mem _ hd))]

/-- `takeWhile` keeps a list on which the predicate holds everywhere. -/
theorem takeWhile_eq_self_of_all (p : Char → Bool) (l : List Char)
    (h : ∀ c ∈ l, p c = true) : l.takeWhile p = l := by
  induction l with
  | nil => rfl
  | cons c cs ih =>
    have hc : p c = true := h c (by simp)
    simp [List.takeWhile_cons, hc, ih (fun d hd => h d (List.mem_cons_of_mem _ hd))]

/-- The regex probe on an uppercase-letter group followed by a digit group
captures exactly the two groups, whatever their contents. -/
theorem matchColRow_upper_digits (L D : List Char) (hL : L ≠ []) (hD : D ≠ [])
    (hLu : ∀ c ∈ L, isAsciiUpper c = true) (hDd : ∀ c ∈ D, isAsciiDigit c = true) :
    matchColRow (L ++ D) = some (L, natOfDigits D) := by
  obtain ⟨d, D', rfl⟩ : ∃ d D', D = d :: D' := by
    cases D with
    | nil => exact absurd rfl hD
    | cons d D' => exact ⟨d, D', rfl⟩
  have hd : isAsciiDigit d = true := hDd d (by simp)
  have hdu : isAsciiUpper d = false := not_upper_of_digit d hd
  unfold matchColRow
  rw [takeWhile_append_all _ _ _ hLu, dropWhile_append_all _ _ _ hLu]
  simp only [List.takeWhile_cons, List.dropWhile_cons, hdu, Bool.false_eq_true,
    if_false, List.append_nil, takeWhile_eq_self_of_all _ _ hDd]
  simp [hL]

/-! ## C2: inverted ranges are accepted, not rejected -/

/-- C2 counterexample: the reversed two-cell reference `B2:A1` parses
successfully into a reference with `start_col` after `end_col` (and
`start_row` after `end_row`); no inverted-range failure exists in
`parse_range_ref`. -/
theorem c2_counterexample_inverted_parses :
    parse_range_ref ('B' :: '2' :: ':' :: 'A' :: '1' :: []) =
      some ⟨none, ['B'], 2, ['A'], 1, true⟩ ∧
    colIndex ['A'] < colIndex ['B'] ∧ 1 < 2 :=
  ⟨rfl, by decide, by decide⟩

/-- C2 amended: `parse_range_ref` performs no ordering validation at all.
Any two-cell reference made of an uppercase letter group and a digit group on
each side of the colon parses to exactly those components, whether or not the
start cell precedes the end cell; reversed ranges are neither rejected (there
is no inverted-range error) nor normalized. -/
theorem c2_amended_parse_accepts_any_order (L1 D1 L2 D2 : List Char)
    (hL1 : L1 ≠ []) (hD1 : D1 ≠ []) (hL2 : L2 ≠ []) (hD2 : D2 ≠ [])
    (hL1u : ∀ c ∈ L1, isAsciiUpper c = true) (hD1d : ∀ c ∈ D1, isAsciiDigit c = true)
    (hL2u : ∀ c ∈ L2, isAsciiUpper c = true) (hD2d : ∀ c ∈ D2, isAsciiDigit c = true) :
    parse_range_ref ((L1 ++ D1) ++ ':' :: (L2 ++ D2)) =
      some ⟨none, L1, natOfDigits D1, L2, natOfDigits D2, true⟩ := by
  have hclass : ∀ c ∈ (L1 ++ D1) ++ ':' :: (L2 ++ D2),
      isAsciiUpper c = true ∨ isAsciiDigit c = true ∨ c = ':' := by
    intro c hc
    rcases List.mem_append.1 hc with h | h
    · rcases List.mem_append.1 h with h | h
      · exact Or.inl (hL1u c h)
      · exact Or.inr (Or.inl (hD1d c h))
    · rcases List.mem_cons.1 h with h | h
      · exact Or.inr (Or.inr h)
      · rcases List.mem_append.1 h with h | h
        · exact Or.inl (hL2u c h)
        · exact Or.inr (Or.inl (hD2d c h))
  have hdollar : '$' ∉ (L1 ++ D1) ++ ':' :: (L2 ++ D2) := by
    intro hm
    rcases hclass _ hm with h | h | h <;> exact absurd h (by decide)
  have hbang : '!' ∉ (L1 ++ D1) ++ ':' :: (L2 ++ D2) := by
    intro hm
    rcases hclass _ hm with h | h | h <;> exact absurd h (by decide)
  have hcolon1 : ':' ∉ L1 ++ D1 := by
    intro hm
    rcases List.mem_append.1 hm with h | h
    · exact absurd (hL1u _ h) (by decide)
    · exact absurd (hD1d _ h) (by decide)
  have hcolon2 : ':' ∉ L2 ++ D2 := by
    intro hm
    rcases List.mem_append.1 hm with h | h
    · exact absurd (hL2u _ h) (by decide)
    · exact absurd (hD2d _ h) (by decide)
  have hfilter : ((L1 ++ D1) ++ ':' :: (L2 ++ D2)).filter (· ≠ '$') =
      (L1 ++ D1) ++ ':' :: (L2 ++ D2) := by
    rw [List.filter_eq_self]
    intro c hc
    have hne : c ≠ '$' := fun e => hdollar (by rw [← e]; exact hc)
    simpa using hne
  have h1 : splitOnChar '!' ((L1 ++ D1) ++ ':' :: (L2 ++ D2)) =
      [(L1 ++ D1) ++ ':' :: (L2 ++ D2)] := splitOnChar_of_not_mem _ _ hbang
  have hcont : ((L1 ++ D1) ++ ':' :: (L2 ++ D2)).contains ':' = true := by
    simp
  have h2 : splitOnChar ':' ((L1 ++ D1) ++ ':' :: (L2 ++ D2)) =
      [L1 ++ D1, L2 ++ D2] := by
    rw [splitOnChar_append _ _ _ hcolon1, splitOnChar_of_not_mem _ _ hcolon2]
  have h3 : matchColRow (L1 ++ D1) = some (L1, natOfDigits D1) :=
    matchColRow_upper_digits _ _ hL1 hD1 hL1u hD1d
  have h4 : matchColRow (L2 ++ D2) = some (L2, natOfDigits D2) :=
    matchColRow_upper_digits _ _ hL2 hD2 hL2u hD2d
  simp only [parse_range_ref, hfilter, h1, List.headD_cons, hcont, if_true, h2, h3, h4]

/-- Witness for the amended C2 at the reversed range `B2:A1`. -/
theorem c2_amended_parse_accepts_any_order_witness :
    parse_range_ref ((['B'] ++ ['2']) ++ ':' :: (['A'] ++ ['1'])) =
      some ⟨none, ['B'], natOfDigits ['2'], ['A'], natOfDigits ['1'], true⟩ :=
  c2_amended_parse_accepts_any_order ['B'] ['2'] ['A'] ['1']
    (by decide) (by decide) (by decide) (by decide)
    (by decide) (by decide) (by decide) (by decide)

/-! ## C8: column letters are case-sensitive, not case-insensitive -/

/-- C8 counterexample: the lowercase spelling `a1` of the valid reference
`A1` does not parse at all (the regex matches only uppercase letters), so the
two spellings do not yield the same coordinates. -/
theorem c8_counterexample_lowercase_fails :
    parse_range_ref ('a' :: '1' :: []) = none ∧
    parse_range_ref ('A' :: '1' :: []) = some ⟨none, ['A'], 1, ['A'], 1, false⟩ :=
  ⟨rfl, rfl⟩

/-- Inversion of the regex probe: a successful match always captures a
nonempty group of uppercase letters. -/
theorem matchColRow_inv (cs l : List Char) (n : Nat)
    (h : matchColRow cs = some (l, n)) :
    l ≠ [] ∧ ∀ c ∈ l, isAsciiUpper c = true := by
  unfold matchColRow at h
  by_cases hg : cs.takeWhile isAsciiUpper = [] ∨
      ((cs.dropWhile isAsciiUpper).takeWhile isAsciiDigit = [])
  · rw [if_pos hg] at h
    exact absurd h (by simp)
  · rw [if_neg hg] at h
    simp only [Option.some.injEq, Prod.mk.injEq] at h
    obtain ⟨hl, -⟩ := h
    push_neg at hg
    constructor
    · rw [← hl]; exact hg.1
    · intro c hc
      rw [← hl] at hc
      exact List.mem_takeWhile_imp hc

/-- C8 amended: column letters are case-sensitive.  Every reference that
parses carries nonempty all-uppercase column letter groups (interpreted in
base-26 by `colIndex`); a reference whose column letters are lowercase never
matches the regex, as the counterexample `a1` versus `A1` shows. -/
theorem c8_amended_parsed_columns_uppercase (raw : List Char) (p : ParsedRef)
    (h : parse_range_ref raw = some p) :
    (p.start_col ≠ [] ∧ ∀ c ∈ p.start_col, isAsciiUpper c = true) ∧
    (p.end_col ≠ [] ∧ ∀ c ∈ p.end_col, isAsciiUpper c = true) := by
  simp only [parse_range_ref] at h
  split_ifs at h
  · split at h
    · rename_i s e heq
      split at h
      · rename_i sc sr ec er heq1 heq2
        cases Option.some.inj h
        exact ⟨matchColRow_inv _ _ _ heq1, matchColRow_inv _ _ _ heq2⟩
      · exact absurd h (by simp)
    · exact absurd h (by simp)
  · split at h
    · rename_i c r heq
      cases Option.some.inj h
      exact ⟨matchColRow_inv _ _ _ heq, matchColRow_inv _ _ _ heq⟩
    · exact absurd h (by simp)

/-- Witness for the amended C8 at the parsed reference `A1`. -/
theorem c8_amended_parsed_columns_uppercase_witness :
    ((⟨none, ['A'], 1, ['A'], 1, false⟩ : ParsedRef).start_col ≠ [] ∧
      ∀ c ∈ (⟨none, ['A'], 1, ['A'], 1, false⟩ : ParsedRef).start_col,
        isAsciiUpper c = true) ∧
    ((⟨none, ['A'], 1, ['A'], 1, false⟩ : ParsedRef).end_col ≠ [] ∧
      ∀ c ∈ (⟨none, ['A'], 1, ['A'], 1, false⟩ : ParsedRef).end_col,
        isAsciiUpper c = true) :=
  c8_amended_parsed_columns_uppercase ('A' :: '1' :: []) ⟨none, ['A'], 1, ['A'], 1, false⟩ rfl

/-! ## C1: role classification from the start-cell probe -/

/-- Every character produced by the fuelled digit expansion is an ASCII
digit. -/
theorem natDigitsF_digits (fuel n : Nat) (c : Char) (h : c ∈ natDigitsF fuel n) :
    isAsciiDigit c = true := by
  induction fuel generalizing n with
  | zero => exact absurd h (by simp [natDigitsF])
  | succ fuel ih =>
    simp only [natDigitsF] at h
    split_ifs at h
    · exact absurd h (by simp)
    · rcases List.mem_append.1 h with h | h
      · exact ih _ h
      · have hc : c = digitChar10 n := by simpa using h
        subst hc
        have hv : 48 + n % 10 < 55296 := by
          have := Nat.mod_lt n (show 0 < 10 by decide)
          omega
        simp only [digitChar10, isAsciiDigit, Bool.and_eq_true, decide_eq_true_eq,
          charToNat_ofNat _ hv]
        have := Nat.mod_lt n (show 0 < 10 by decide)
        omega

/-- A string of ASCII digits never starts with `=`. -/
theorem startsWithEq_false_of_digits (l : List Char)
    (h : ∀ c ∈ l, isAsciiDigit c = true) : startsWithEq l = false := by
  cases l with
  | nil => rfl
  | cons c cs =>
    have hc := h c (by simp)
    simp only [startsWithEq]
    exact decide_eq_false (fun e => by rw [e] at hc; exact absurd hc (by decide))

/-- The decimal rendering of an integer never starts with `=`. -/
theorem startsWithEq_intRepr (n : Int) : startsWithEq (intRepr n) = false := by
  unfold intRepr
  split_ifs
  · rfl
  · unfold natRepr
    split_ifs
    · rfl
    · exact startsWithEq_false_of_digits _ (fun c hc => natDigitsF_digits _ _ c hc)

/-- The code's string-prefix formula probe agrees with the "holds a standard
formula string" predicate on every cell value: the two differ nowhere because
no non-string value renders to a string starting with `=` (numbers render in
decimal, bools as `True`/`False`, `None` as `None`, and an `ArrayFormula`
object as its angle-bracketed object representation — which is exactly why
the probe misses array formulas). -/
theorem has_formula_eq_specHoldsStandardFormula (v : CellValue) :
    has_formula v = specHoldsStandardFormula v := by
  cases v with
  | empty => rfl
  | str s =>
    cases s with
    | nil => rfl
    | cons c cs => simp [has_formula, truthy, pyStr, specHoldsStandardFormula, startsWithEq]
  | num n =>
    have h := startsWithEq_intRepr n
    simp [has_formula, truthy, pyStr, specHoldsStandardFormula, h]
  | boolV b => cases b <;> rfl
  | arrayFormula t r => rfl

/-- C1 amended: for every workbook and parsed region reference, the
classification loop computes exactly `specRole` of the region's start-cell
probe alone: UNKNOWN when the probe cell cannot be resolved (missing sheet
qualifier, unknown sheet name, out-of-bounds address), OUTPUT exactly when
the probed cell holds a *standard* formula string, INPUT when it holds any
other value or is empty — including a cell holding an array-formula-typed
value, which the string-prefix probe misclassifies INPUT although it holds a
formula (see the counterexample).  In particular the classification depends
on no cell other than the region's start cell, whatever the region's
shape. -/
theorem c1_role_classification_start_cell (wb : Workbook) (p : ParsedRef) :
    classify_region wb p = specRole (probeStart wb p) := by
  unfold classify_region specRole
  cases probeStart wb p with
  | none => rfl
  | some v => simp [has_formula_eq_specHoldsStandardFormula]

/-- C1 counterexample: a region whose start cell holds a legacy array
formula with text `SUM(A1:A5)` — a formula in the data model's full sense —
is classified INPUT, not OUTPUT: `str(cell.value)` on an `ArrayFormula`
object is its object representation, which does not start with `=`.  So
"OUTPUT exactly when that cell holds a formula" fails at this input. -/
theorem c1_counterexample_array_formula_probe :
    probeStart
        ⟨fun name => if name = ['S']
          then some (fun _ _ => CellValue.arrayFormula ("SUM(A1:A5)".toList)
            ("A1:A5".toList))
          else none⟩
        ⟨some ['S'], ['A'], 1, ['A'], 1, false⟩ =
      some (CellValue.arrayFormula ("SUM(A1:A5)".toList) ("A1:A5".toList)) ∧
    specHoldsAnyFormula
      (CellValue.arrayFormula ("SUM(A1:A5)".toList) ("A1:A5".toList)) = true ∧
    classify_region
        ⟨fun name => if name = ['S']
          then some (fun _ _ => CellValue.arrayFormula ("SUM(A1:A5)".toList)
            ("A1:A5".toList))
          else none⟩
        ⟨some ['S'], ['A'], 1, ['A'], 1, false⟩ = RegionRole.INPUT ∧
    RegionRole.INPUT ≠ RegionRole.OUTPUT :=
  ⟨rfl, rfl, rfl, by decide⟩

/-! ## C3 and C4: the array-formula normalizer -/

/-- The workbook component of a normalization step is `stepWb`. -/
theorem normStep_wb (st : NormState) (t : List Char × List Char) :
    (normStep st t).wb = stepWb st.wb t := by
  unfold normStep stepWb
  cases h : (st.wb t).value <;> (simp [h]; try (split_ifs <;> rfl))

/-- The workbook component of a normalization pass depends only on the
starting workbook, not on the report lists accumulated so far. -/
theorem foldl_normStep_wb (l : List (List Char × List Char)) (st : NormState) :
    (List.foldl normStep st l).wb = List.foldl stepWb st.wb l := by
  induction l generalizing st with
  | nil => rfl
  | cons t rest ih => rw [List.foldl_cons, List.foldl_cons, ih, normStep_wb]

/-- A normalization step leaves every cell other than its target alone. -/
theorem stepWb_ne (wb : Wb2) (t a : List Char × List Char) (h : a ≠ t) :
    stepWb wb t a = wb a := by
  unfold stepWb
  cases hv : (wb t).value <;> simp [h]

/-- A normalization step leaves a cell holding a standard formula alone. -/
theorem stepWb_std (wb : Wb2) (t a : List Char × List Char)
    (h : stdFormulaAt wb a) : stepWb wb t a = wb a := by
  rcases h with ⟨s, hs⟩
  by_cases hat : a = t
  · subst hat
    unfold stepWb
    rw [hs]
  · exact stepWb_ne wb t a hat

/-- A whole pass leaves a cell holding a standard formula alone. -/
theorem foldl_stepWb_std (l : List (List Char × List Char)) (wb : Wb2)
    (a : List Char × List Char) (h : stdFormulaAt wb a) :
    List.foldl stepWb wb l a = wb a := by
  induction l generalizing wb with
  | nil => rfl
  | cons t rest ih =>
    rcases h with ⟨s, hs⟩
    have hcell : stepWb wb t a = wb a := stepWb_std wb t a ⟨s, hs⟩
    rw [List.foldl_cons, ih (stepWb wb t) ⟨s, by rw [hcell]; exact hs⟩, hcell]

/-- A whole pass leaves a cell outside the target list alone. -/
theorem foldl_stepWb_notmem (l : List (List Char × List Char)) (wb : Wb2)
    (a : List Char × List Char) (h : a ∉ l) :
    List.foldl stepWb wb l a = wb a := by
  induction l generalizing wb with
  | nil => rfl
  | cons t rest ih =>
    have hat : a ≠ t := fun e => h (by simp [e])
    rw [List.foldl_cons, ih (stepWb wb t) (fun hm => h (List.mem_cons_of_mem _ hm)),
      stepWb_ne wb t a hat]

/-- A whole pass leaves a cell whose value is not an `ArrayFormula` alone. -/
theorem foldl_stepWb_nonarray (l : List (List Char × List Char)) (wb : Wb2)
    (a : List Char × List Char) (h : isArrayVal ((wb a).value) = false) :
    List.foldl stepWb wb l a = wb a := by
  induction l generalizing wb with
  | nil => rfl
  | cons t rest ih =>
    have hcell : stepWb wb t a = wb a := by
      by_cases hat : a = t
      · subst hat
        unfold stepWb
        cases hv : (wb a).value <;> (simp [hv] at h ⊢; try simp [isArrayVal, hv] at h)
      · exact stepWb_ne wb t a hat
    rw [List.foldl_cons, ih (stepWb wb t) (by rw [hcell]; exact h), hcell]

/-- Cells recorded as converted hold a standard formula in the pass's final
workbook. -/
theorem foldl_normStep_converted_std (l : List (List Char × List Char))
    (st : NormState) (h : ∀ a ∈ st.converted, stdFormulaAt st.wb a) :
    ∀ a ∈ (List.foldl normStep st l).converted,
      stdFormulaAt (List.foldl normStep st l).wb a := by
  induction l generalizing st with
  | nil => exact h
  | cons t rest ih =>
    rw [List.foldl_cons]
    refine ih (normStep st t) ?_
    intro a ha
    unfold normStep at ha ⊢
    cases hv : (st.wb t).value with
    | arrayFormula txt ext =>
      simp only [hv] at ha ⊢
      rcases List.mem_append.1 ha with ha | ha
      · rcases h a ha with ⟨s, hs⟩
        have hat : a ≠ t := fun e => by rw [e, hv] at hs; cases hs
        exact ⟨s, by simp only [if_neg hat]; exact hs⟩
      · have hat : a = t := by simpa using ha
        subst hat
        exact ⟨txt, by simp⟩
    | empty => simp only [hv] at ha ⊢; split_ifs at ha ⊢ <;> exact h a ha
    | str s => simp only [hv] at ha ⊢; split_ifs at ha ⊢ <;> exact h a ha
    | num n => simp only [hv] at ha ⊢; split_ifs at ha ⊢ <;> exact h a ha
    | boolV b => simp only [hv] at ha ⊢; split_ifs at ha ⊢ <;> exact h a ha

/-- A pass over cells that all hold standard formulas converts nothing,
mutates nothing, and skips every cell as already standard. -/
theorem foldl_normStep_all_std (l : List (List Char × List Char)) (st : NormState)
    (h : ∀ a ∈ l, stdFormulaAt st.wb a) :
    List.foldl normStep st l =
      ⟨st.wb, st.converted,
        st.skipped ++ l.map (fun t => (t, SkipReason.ALREADY_STANDARD))⟩ := by
  induction l generalizing st with
  | nil => simp
  | cons t rest ih =>
    rcases h t (by simp) with ⟨s, hs⟩
    have hstep : normStep st t =
        ⟨st.wb, st.converted, st.skipped ++ [(t, SkipReason.ALREADY_STANDARD)]⟩ := by
      unfold normStep
      simp only [hs]
      simp [truthy, pyStr, startsWithEq]
    rw [List.foldl_cons, hstep, ih]
    · simp
    · intro a ha
      exact h a (List.mem_cons_of_mem _ ha)

/-- C3: normalization is idempotent.  Re-running the pass over exactly the
addresses its first run reported as converted mutates no cell (the workbook
is unchanged), converts nothing, and records every such address as skipped
with reason ALREADY_STANDARD; moreover any cell whose value is not an
`ArrayFormula` (in particular one already holding a standard formula) is
never rewritten by a pass. -/
theorem c3_normalize_idempotent (wb : Wb2) (cells : List (List Char × List Char)) :
    ((normalizeCells (normalizeCells wb cells).wb (normalizeCells wb cells).converted).wb =
        (normalizeCells wb cells).wb ∧
      (normalizeCells (normalizeCells wb cells).wb
          (normalizeCells wb cells).converted).converted = [] ∧
      (normalizeCells (normalizeCells wb cells).wb
          (normalizeCells wb cells).converted).skipped =
        (normalizeCells wb cells).converted.map
          (fun t => (t, SkipReason.ALREADY_STANDARD))) ∧
    ∀ a, isArrayVal ((wb a).value) = false → (normalizeCells wb cells).wb a = wb a := by
  constructor
  · have hstd : ∀ a ∈ (normalizeCells wb cells).converted,
        stdFormulaAt (normalizeCells wb cells).wb a :=
      foldl_normStep_converted_std cells ⟨wb, [], []⟩ (by intro a ha; cases ha)
    have hrun := foldl_normStep_all_std (normalizeCells wb cells).converted
      ⟨(normalizeCells wb cells).wb, [], []⟩ (by intro a ha; exact hstd a ha)
    unfold normalizeCells
    unfold normalizeCells at hrun
    rw [hrun]
    simp
  · intro a ha
    unfold normalizeCells
    rw [foldl_normStep_wb]
    exact foldl_stepWb_nonarray cells wb a ha

/-- Witness for C3 on a one-cell workbook holding the standard formula
`=1`. -/
theorem c3_normalize_idempotent_witness :
    ((normalizeCells
          (normalizeCells (fun _ => ⟨CellValue.str ['=', '1'], [], 0, none, false⟩)
              [(['S'], ['A'])]).wb
          (normalizeCells (fun _ => ⟨CellValue.str ['=', '1'], [], 0, none, false⟩)
              [(['S'], ['A'])]).converted).wb =
        (normalizeCells (fun _ => ⟨CellValue.str ['=', '1'], [], 0, none, false⟩)
            [(['S'], ['A'])]).wb ∧
      (normalizeCells
          (normalizeCells (fun _ => ⟨CellValue.str ['=', '1'], [], 0, none, false⟩)
              [(['S'], ['A'])]).wb
          (normalizeCells (fun _ => ⟨CellValue.str ['=', '1'], [], 0, none, false⟩)
              [(['S'], ['A'])]).converted).converted = [] ∧
      (normalizeCells
          (normalizeCells (fun _ => ⟨CellValue.str ['=', '1'], [], 0, none, false⟩)
              [(['S'], ['A'])]).wb
          (normalizeCells (fun _ => ⟨CellValue.str ['=', '1'], [], 0, none, false⟩)
              [(['S'], ['A'])]).converted).skipped =
        (normalizeCells (fun _ => ⟨CellValue.str ['=', '1'], [], 0, none, false⟩)
            [(['S'], ['A'])]).converted.map
          (fun t => (t, SkipReason.ALREADY_STANDARD))) ∧
    (normalizeCells (fun _ => ⟨CellValue.str ['=', '1'], [], 0, none, false⟩)
        [(['S'], ['A'])]).wb (['S'], ['A']) =
      (fun _ => (⟨CellValue.str ['=', '1'], [], 0, none, false⟩ : Cell)) (['S'], ['A']) :=
  ⟨(c3_normalize_idempotent _ [(['S'], ['A'])]).1,
    (c3_normalize_idempotent _ [(['S'], ['A'])]).2 (['S'], ['A']) rfl⟩

/-- The targeted array-formula cell ends up rewritten to the standard
formula, all other cell properties intact. -/
theorem foldl_stepWb_target (l : List (List Char × List Char)) (wb : Wb2)
    (t : List Char × List Char) (txt ext : List Char) (ht : t ∈ l)
    (hv : (wb t).value = .arrayFormula txt ext) :
    List.foldl stepWb wb l t = { wb t with value := .str ('=' :: txt) } := by
  induction l generalizing wb with
  | nil => cases ht
  | cons c rest ih =>
    by_cases hct : c = t
    · subst hct
      have hstep : stepWb wb c = fun k =>
          if k = c then { wb c with value := .str ('=' :: txt) } else wb k := by
        unfold stepWb
        rw [hv]
      rw [List.foldl_cons, hstep]
      have hstd : stdFormulaAt
          (fun k => if k = c then { wb c with value := .str ('=' :: txt) } else wb k) c :=
        ⟨txt, by simp⟩
      rw [foldl_stepWb_std rest _ c hstd]
      simp
    · have htr : t ∈ rest := by
        rcases List.mem_cons.1 ht with h | h
        · exact absurd h.symm hct
        · exact h
      have hcell : stepWb wb c t = wb t := stepWb_ne wb c t (fun e => hct e.symm)
      rw [List.foldl_cons, ih (stepWb wb c) htr (by rw [hcell]; exact hv), hcell]

/-- C4: for a targeted cell currently holding an `ArrayFormula` with text
`txt`, the normalization pass rewrites exactly that cell's value to the
string `=txt` while keeping its number format, style, comment and merged
flag identical, and leaves every cell outside the target list untouched. -/
theorem c4_normalize_frame (wb : Wb2) (cells : List (List Char × List Char))
    (t : List Char × List Char) (txt ext : List Char) (ht : t ∈ cells)
    (hv : (wb t).value = .arrayFormula txt ext) :
    ((normalizeCells wb cells).wb t).value = .str ('=' :: txt) ∧
    ((normalizeCells wb cells).wb t).numFmt = (wb t).numFmt ∧
    ((normalizeCells wb cells).wb t).style = (wb t).style ∧
    ((normalizeCells wb cells).wb t).comment = (wb t).comment ∧
    ((normalizeCells wb cells).wb t).merged = (wb t).merged ∧
    ∀ a, a ∉ cells → (normalizeCells wb cells).wb a = wb a := by
  have hwb : (normalizeCells wb cells).wb = List.foldl stepWb wb cells := by
    unfold normalizeCells
    exact foldl_normStep_wb cells ⟨wb, [], []⟩
  rw [hwb, foldl_stepWb_target cells wb t txt ext ht hv]
  refine ⟨rfl, rfl, rfl, rfl, rfl, ?_⟩
  intro a hna
  rw [← hwb]
  rw [hwb]
  exact foldl_stepWb_notmem cells wb a hna

/-- Witness for C4 on a one-cell workbook holding an array formula with
text `1` and distinctive non-value properties. -/
theorem c4_normalize_frame_witness :
    ((normalizeCells
          (fun k => if k = (['S'], ['A'])
            then ⟨CellValue.arrayFormula ['1'] [], ['f'], 2, some ['c'], true⟩
            else ⟨CellValue.num 7, [], 0, none, false⟩)
          [(['S'], ['A'])]).wb (['S'], ['A'])).value = CellValue.str ('=' :: ['1']) ∧
    ((normalizeCells
          (fun k => if k = (['S'], ['A'])
            then ⟨CellValue.arrayFormula ['1'] [], ['f'], 2, some ['c'], true⟩
            else ⟨CellValue.num 7, [], 0, none, false⟩)
          [(['S'], ['A'])]).wb (['S'], ['A'])).numFmt =
      ((fun k => if k = (['S'], ['A'])
            then (⟨CellValue.arrayFormula ['1'] [], ['f'], 2, some ['c'], true⟩ : Cell)
            else ⟨CellValue.num 7, [], 0, none, false⟩) ((['S'], ['A']))).numFmt ∧
    ((normalizeCells
          (fun k => if k = (['S'], ['A'])
            then ⟨CellValue.arrayFormula ['1'] [], ['f'], 2, some ['c'], true⟩
            else ⟨CellValue.num 7, [], 0, none, false⟩)
          [(['S'], ['A'])]).wb (['S'], ['A'])).style =
      ((fun k => if k = (['S'], ['A'])
            then (⟨CellValue.arrayFormula ['1'] [], ['f'], 2, some ['c'], true⟩ : Cell)
            else ⟨CellValue.num 7, [], 0, none, false⟩) ((['S'], ['A']))).style ∧
    ((normalizeCells
          (fun k => if k = (['S'], ['A'])
            then ⟨CellValue.arrayFormula ['1'] [], ['f'], 2, some ['c'], true⟩
            else ⟨CellValue.num 7, [], 0, none, false⟩)
          [(['S'], ['A'])]).wb (['S'], ['A'])).comment =
      ((fun k => if k = (['S'], ['A'])
            then (⟨CellValue.arrayFormula ['1'] [], ['f'], 2, some ['c'], true⟩ : Cell)
            else ⟨CellValue.num 7, [], 0, none, false⟩) ((['S'], ['A']))).comment ∧
    ((normalizeCells
          (fun k => if k = (['S'], ['A'])
            then ⟨CellValue.arrayFormula ['1'] [], ['f'], 2, some ['c'], true⟩
            else ⟨CellValue.num 7, [], 0, none, false⟩)
          [(['S'], ['A'])]).wb (['S'], ['A'])).merged =
      ((fun k => if k = (['S'], ['A'])
            then (⟨CellValue.arrayFormula ['1'] [], ['f'], 2, some ['c'], true⟩ : Cell)
            else ⟨CellValue.num 7, [], 0, none, false⟩) ((['S'], ['A']))).merged ∧
    ∀ a, a ∉ [((['S'], ['A']) : List Char × List Char)] →
      (normalizeCells
          (fun k => if k = (['S'], ['A'])
            then ⟨CellValue.arrayFormula ['1'] [], ['f'], 2, some ['c'], true⟩
            else ⟨CellValue.num 7, [], 0, none, false⟩)
          [(['S'], ['A'])]).wb a =
        (fun k => if k = (['S'], ['A'])
            then (⟨CellValue.arrayFormula ['1'] [], ['f'], 2, some ['c'], true⟩ : Cell)
            else ⟨CellValue.num 7, [], 0, none, false⟩) a :=
  c4_normalize_frame _ [(['S'], ['A'])] (['S'], ['A']) ['1'] []
    (by simp) (by simp)

/-! ## C6: the input scrubber's per-row outcomes -/

/-- C6 counterexample: a label-bearing row the scrubber fully processes (its
label `FICO Score` synthesizes the identifier `FICOScore`) whose value cell
is empty receives neither of the claim's two outcomes: after the whole run
nothing is recorded under `cleared`, nothing under `preservedFormulas`
(`skipped_formulas`), and the value cell is untouched — zero outcomes, not
exactly one. -/
theorem c6_counterexample_empty_value_cell :
    (fun r => if r = 1 then some ("FICO Score".toList) else none) 1 =
      some ("FICO Score".toList) ∧
    labelToNameCore ("FICO Score".toList) = some ("FICOScore".toList) ∧
    (scrub (fun r => if r = 1 then some ("FICO Score".toList) else none)
        ⟨fun _ => CellValue.empty, [], [], [], []⟩).cleared = [] ∧
    (scrub (fun r => if r = 1 then some ("FICO Score".toList) else none)
        ⟨fun _ => CellValue.empty, [], [], [], []⟩).skipped_formulas = [] ∧
    (scrub (fun r => if r = 1 then some ("FICO Score".toList) else none)
        ⟨fun _ => CellValue.empty, [], [], [], []⟩).dcol 1 = CellValue.empty :=
  ⟨rfl, rfl, rfl, rfl, rfl⟩

/-- C6 amended: for every label-bearing row the scrubber processes (label
present and synthesizing a name), a formula value cell is left unchanged and
recorded only under `skipped_formulas`; a non-empty non-formula value cell is
cleared to empty and recorded only under `cleared`; and an empty value cell
receives neither outcome and is left unchanged.  Exactly one outcome occurs
when the value cell is non-empty; none when it is empty. -/
theorem c6_amended_row_trichotomy (ccol : Nat → Option (List Char))
    (st : ScrubState) (row : Nat) (c_val name : List Char)
    (hc : ccol row = some c_val) (hn : labelToNameCore c_val = some name) :
    (is_formula_d (st.dcol row) = true →
      (processRow ccol st row).dcol = st.dcol ∧
      (processRow ccol st row).skipped_formulas =
        st.skipped_formulas ++ [(row, c_val, st.dcol row)] ∧
      (processRow ccol st row).cleared = st.cleared) ∧
    (is_formula_d (st.dcol row) = false → st.dcol row ≠ CellValue.empty →
      (processRow ccol st row).dcol row = CellValue.empty ∧
      (∀ r, r ≠ row → (processRow ccol st row).dcol r = st.dcol r) ∧
      (processRow ccol st row).cleared = st.cleared ++ [(row, c_val, st.dcol row)] ∧
      (processRow ccol st row).skipped_formulas = st.skipped_formulas) ∧
    (st.dcol row = CellValue.empty →
      (processRow ccol st row).dcol = st.dcol ∧
      (processRow ccol st row).cleared = st.cleared ∧
      (processRow ccol st row).skipped_formulas = st.skipped_formulas) := by
  refine ⟨?_, ?_, ?_⟩
  · intro hf
    simp only [processRow, hc, hn, hf, if_true]
    split_ifs <;> simp
  · intro hf hne
    simp only [processRow, hc, hn, hf, Bool.false_eq_true, if_false, ne_eq, hne,
      not_false_eq_true, if_true]
    split_ifs <;>
      exact ⟨by simp, fun r hr => by simp [if_neg hr], by simp, by simp⟩
  · intro he
    have hf0 : is_formula_d CellValue.empty = false := rfl
    simp only [processRow, hc, hn, he, hf0, Bool.false_eq_true, if_false, ne_eq,
      not_true_eq_false]
    split_ifs <;> simp_all

/-- Witness for the amended C6 at a concrete non-empty literal row. -/
theorem c6_amended_row_trichotomy_witness :
    (processRow (fun r => if r = 1 then some ("FICO Score".toList) else none)
        ⟨fun _ => CellValue.num 720, [], [], [], []⟩ 1).cleared =
      ([] : List (Nat × List Char × CellValue)) ++
        [(1, "FICO Score".toList, CellValue.num 720)] :=
  ((c6_amended_row_trichotomy
      (fun r => if r = 1 then some ("FICO Score".toList) else none)
      ⟨fun _ => CellValue.num 720, [], [], [], []⟩ 1
      ("FICO Score".toList) ("FICOScore".toList) rfl rfl).2.1 rfl
    (by decide)).2.2.1

/-! ## C9: name-collision handling is case-sensitive at registration -/

/-- C9 counterexample: with `FICOScore` already declared, the label
`FICO SCORE` synthesizes `FICOSCORE`, which equals the existing identifier up
to letter case (both lowercase to `ficoscore`), yet the registration check
(`range_name in wb.defined_names`, an exact key lookup) does not fire: a new
registration is made and two names differing only in case coexist. -/
theorem c9_counterexample_case_collision_registered :
    labelToNameCore ("FICO SCORE".toList) = some ("FICOSCORE".toList) ∧
    "FICOSCORE".toList.map asciiLower = "FICOScore".toList.map asciiLower ∧
    (processRow (fun r => if r = 1 then some ("FICO SCORE".toList) else none)
        ⟨fun _ => CellValue.empty, [("FICOScore".toList, mkRef 5)], [], [], []⟩
        1).defined =
      [("FICOScore".toList, mkRef 5), ("FICOSCORE".toList, mkRef 1)] :=
  ⟨rfl, rfl, rfl⟩

/-- C9 amended: collision handling at the registering site is exact-match
(case-sensitive).  When the synthesized name exactly equals a declared name,
no registration is made and the defined-name table is left entirely unchanged
(existing bindings intact, nothing renamed); otherwise the name is appended
as a new registration.  Either way the row's processing completes normally. -/
theorem c9_amended_exact_match_skip (ccol : Nat → Option (List Char))
    (st : ScrubState) (row : Nat) (c_val name : List Char)
    (hc : ccol row = some c_val) (hn : labelToNameCore c_val = some name) :
    ((st.defined.map Prod.fst).contains name = true →
      (processRow ccol st row).defined = st.defined ∧
      (processRow ccol st row).named_ranges = st.named_ranges) ∧
    ((st.defined.map Prod.fst).contains name = false →
      (processRow ccol st row).defined = st.defined ++ [(name, mkRef row)] ∧
      (processRow ccol st row).named_ranges =
        st.named_ranges ++ [(name, mkRef row, c_val)]) := by
  constructor
  · intro hcont
    simp only [processRow, hc, hn]
    split_ifs <;> simp_all
  · intro hcont
    simp only [processRow, hc, hn]
    split_ifs <;> simp_all

/-- Witness for the amended C9: an exact-name collision leaves the table
unchanged, and a fresh name is appended. -/
theorem c9_amended_exact_match_skip_witness :
    (processRow (fun r => if r = 1 then some ("FICO Score".toList) else none)
        ⟨fun _ => CellValue.empty, [("FICOScore".toList, mkRef 5)], [], [], []⟩
        1).defined =
      [("FICOScore".toList, mkRef 5)] ∧
    (processRow (fun r => if r = 1 then some ("FICO Score".toList) else none)
        ⟨fun _ => CellValue.empty, [("FICOScore".toList, mkRef 5)], [], [], []⟩
        1).named_ranges = ([] : List (List Char × List Char × List Char)) :=
  (c9_amended_exact_match_skip
      (fun r => if r = 1 then some ("FICO Score".toList) else none)
      ⟨fun _ => CellValue.empty, [("FICOScore".toList, mkRef 5)], [], [], []⟩ 1
      ("FICO Score".toList) ("FICOScore".toList) rfl rfl).1 (by decide)

/-! ## C10: identifier synthesis is idempotent on its own output -/

/-- The parenthesis pattern cannot match anywhere in a string containing no
opening parenthesis. -/
theorem matchWsParen_none (cs : List Char) (h : '(' ∉ cs) :
    matchWsParen cs = none := by
  unfold matchWsParen
  cases hd : cs.dropWhile pyIsSpace with
  | nil => rfl
  | cons c rest =>
    have hc : c ∈ cs := (List.dropWhile_sublist _).subset (by rw [hd]; simp)
    have hne : ¬(c = '(') := fun e => h (e ▸ hc)
    simp [hne]

/-- Parenthesis stripping is the identity on strings without an opening
parenthesis, whatever the fuel. -/
theorem stripParensF_no_paren (fuel : Nat) (cs : List Char) (h : '(' ∉ cs) :
    stripParensF fuel cs = cs := by
  induction fuel generalizing cs with
  | zero => cases cs <;> rfl
  | succ fuel ih =>
    cases cs with
    | nil => rfl
    | cons c cs' =>
      have hcs' : '(' ∉ cs' := fun hm => h (List.mem_cons_of_mem _ hm)
      simp only [stripParensF, matchWsParen_none _ h]
      rw [ih cs' hcs']

/-- Parenthesis stripping is the identity on strings without an opening
parenthesis. -/
theorem stripParens_no_paren (cs : List Char) (h : '(' ∉ cs) :
    stripParens cs = cs :=
  stripParensF_no_paren _ cs h

/-- Identifier characters survive the keep filter. -/
theorem keepChar_of_good (c : Char) (h : goodChar c = true) : keepChar c = true := by
  simp only [goodChar, Bool.or_eq_true] at h
  simp only [keepChar, Bool.or_eq_true]
  tauto

/-- Identifier characters are not whitespace. -/
theorem good_not_space (c : Char) (h : goodChar c = true) : pyIsSpace c = false := by
  have hb : (65 ≤ c.toNat ∧ c.toNat ≤ 90) ∨ (97 ≤ c.toNat ∧ c.toNat ≤ 122) ∨
      (48 ≤ c.toNat ∧ c.toNat ≤ 57) ∨ c = '_' := by
    simp only [goodChar, isAsciiAlpha, isAsciiUpper, isAsciiLower, isAsciiDigit,
      Bool.or_eq_true, Bool.and_eq_true, decide_eq_true_eq] at h
    tauto
  simp only [pyIsSpace, Bool.or_eq_false_iff, decide_eq_false_iff_not]
  refine ⟨⟨⟨⟨⟨?_, ?_⟩, ?_⟩, ?_⟩, ?_⟩, ?_⟩ <;>
    · intro e
      subst e
      rcases hb with h | h | h | h <;> revert h <;> decide

/-- A character that the keep filter retains and that is not whitespace is an
identifier character. -/
theorem good_of_keep_not_space (c : Char) (hk : keepChar c = true)
    (hs : pyIsSpace c = false) : goodChar c = true := by
  simp only [keepChar, Bool.or_eq_true, hs] at hk
  simp only [goodChar, Bool.or_eq_true]
  rcases hk with ((h | h) | h) | h
  · exact Or.inl (Or.inl h)
  · exact Or.inl (Or.inr h)
  · exact Or.inr h
  · cases h

/-- The opening parenthesis is not an identifier character, so a string of
identifier characters contains none. -/
theorem paren_not_mem_good (n : List Char) (h : ∀ c ∈ n, goodChar c = true) :
    '(' ∉ n :=
  fun hm => absurd (h _ hm) (by decide)

/-- Characters of the words of `splitWsAux` come from the input or the
accumulator, and those from the input are not whitespace. -/
theorem splitWsAux_mem_chars (cs acc w : List Char) (hw : w ∈ splitWsAux cs acc) :
    ∀ c ∈ w, (c ∈ cs ∧ pyIsSpace c = false) ∨ c ∈ acc := by
  induction cs generalizing acc with
  | nil =>
    intro c hc
    simp only [splitWsAux] at hw
    split_ifs at hw with hacc
    · cases hw
    · have : w = acc.reverse := by simpa using hw
      subst this
      exact Or.inr (by simpa using hc)
  | cons d cs' ih =>
    intro c hc
    simp only [splitWsAux] at hw
    split_ifs at hw with hsp hacc
    · rcases (ih [] hw c hc) with ⟨h1, h2⟩ | h
      · exact Or.inl ⟨List.mem_cons_of_mem _ h1, h2⟩
      · cases h
    · rcases List.mem_cons.1 hw with he | hw'
      · subst he
        exact Or.inr (by simpa using hc)
      · rcases (ih [] hw' c hc) with ⟨h1, h2⟩ | h
        · exact Or.inl ⟨List.mem_cons_of_mem _ h1, h2⟩
        · cases h
    · rcases (ih (d :: acc) hw c hc) with ⟨h1, h2⟩ | h
      · exact Or.inl ⟨List.mem_cons_of_mem _ h1, h2⟩
      · rcases List.mem_cons.1 h with he | hacc'
        · subst he
          exact Or.inl ⟨by simp, by simpa using hsp⟩
        · exact Or.inr hacc'

/-- Characters of the words of `splitWs` come from the input and are not
whitespace. -/
theorem splitWs_mem_chars (cs w : List Char) (hw : w ∈ splitWs cs) :
    ∀ c ∈ w, c ∈ cs ∧ pyIsSpace c = false := by
  intro c hc
  rcases splitWsAux_mem_chars cs [] w hw c hc with h | h
  · exact h
  · cases h

/-- Words produced by `splitWsAux` are nonempty. -/
theorem splitWsAux_words_ne_nil (cs acc w : List Char) (hw : w ∈ splitWsAux cs acc) :
    w ≠ [] := by
  induction cs generalizing acc with
  | nil =>
    simp only [splitWsAux] at hw
    split_ifs at hw with hacc
    · cases hw
    · have : w = acc.reverse := by simpa using hw
      subst this
      simpa using hacc
  | cons d cs' ih =>
    simp only [splitWsAux] at hw
    split_ifs at hw with hsp hacc
    · exact ih [] hw
    · rcases List.mem_cons.1 hw with he | hw'
      · subst he
        simpa using hacc
      · exact ih [] hw'
    · exact ih (d :: acc) hw

/-- Words produced by `splitWs` are nonempty. -/
theorem splitWs_words_ne_nil (cs w : List Char) (hw : w ∈ splitWs cs) : w ≠ [] :=
  splitWsAux_words_ne_nil cs [] w hw

/-- `splitWsAux` on an all-non-whitespace input produces the single word made
of the accumulator and the input. -/
theorem splitWsAux_no_space (cs acc : List Char)
    (h : ∀ c ∈ cs, pyIsSpace c = false) (hne : acc ≠ [] ∨ cs ≠ []) :
    splitWsAux cs acc = [acc.reverse ++ cs] := by
  induction cs generalizing acc with
  | nil =>
    rcases hne with hacc | hcs
    · simp [splitWsAux, hacc]
    · exact absurd rfl hcs
  | cons d cs' ih =>
    have hd : pyIsSpace d = false := h d (by simp)
    simp only [splitWsAux, hd, Bool.false_eq_true, if_false]
    rw [ih (d :: acc) (fun c hc => h c (List.mem_cons_of_mem _ hc)) (Or.inl (by simp))]
    simp

/-- Splitting an all-non-whitespace nonempty string yields that single
word. -/
theorem splitWs_no_space (cs : List Char) (hne : cs ≠ [])
    (h : ∀ c ∈ cs, pyIsSpace c = false) : splitWs cs = [cs] := by
  unfold splitWs
  rw [splitWsAux_no_space cs [] h (Or.inr hne)]
  simp

/-- Uppercasing preserves identifier characters. -/
theorem goodChar_asciiUpper (c : Char) (h : goodChar c = true) :
    goodChar (asciiUpper c) = true := by
  by_cases hl : isAsciiLower c = true
  · have := isAsciiUpper_asciiUpper c hl
    simp [goodChar, isAsciiAlpha, this]
  · rw [asciiUpper_of_not_lower c (by simpa using hl)]
    exact h

/-- Lowercasing preserves identifier characters. -/
theorem goodChar_asciiLower (c : Char) (h : goodChar c = true) :
    goodChar (asciiLower c) = true := by
  by_cases hu : isAsciiUpper c = true
  · have := isAsciiLower_asciiLower c hu
    simp [goodChar, isAsciiAlpha, this]
  · rw [asciiLower_of_not_upper c (by simpa using hu)]
    exact h

/-- Every character of a capitalized word is the upper- or lowercased form of
a character of the word. -/
theorem mem_pyCapitalize (w : List Char) (c : Char) (hc : c ∈ pyCapitalize w) :
    ∃ d ∈ w, c = asciiUpper d ∨ c = asciiLower d := by
  cases w with
  | nil => cases hc
  | cons d ws =>
    simp only [pyCapitalize] at hc
    rcases List.mem_cons.1 hc with he | hm
    · exact ⟨d, by simp, Or.inl he⟩
    · rcases List.mem_map.1 hm with ⟨e, he, rfl⟩
      exact ⟨e, List.mem_cons_of_mem _ he, Or.inr rfl⟩

/-- Word processing preserves identifier characters. -/
theorem mem_processWord_good (w : List Char) (hw : ∀ c ∈ w, goodChar c = true) :
    ∀ c ∈ processWord w, goodChar c = true := by
  intro c hc
  unfold processWord at hc
  split_ifs at hc
  · rcases mem_pyCapitalize w c hc with ⟨d, hd, he | he⟩
    · exact he ▸ goodChar_asciiUpper d (hw d hd)
    · exact he ▸ goodChar_asciiLower d (hw d hd)
  · exact hw c hc

/-- Word processing preserves nonemptiness. -/
theorem processWord_ne_nil (w : List Char) (hw : w ≠ []) : processWord w ≠ [] := by
  unfold processWord
  split_ifs
  · cases w with
    | nil => exact absurd rfl hw
    | cons d ws => simp [pyCapitalize]
  · exact hw

/-- Mapping a function that fixes every member is the identity. -/
theorem map_id_of_mem (f : Char → Char) (l : List Char) (h : ∀ c ∈ l, f c = c) :
    l.map f = l := by
  induction l with
  | nil => rfl
  | cons c cs ih =>
    rw [List.map_cons, h c (by simp), ih (fun d hd => h d (List.mem_cons_of_mem _ hd))]

/-- An all-lowercase string contains no uppercase character. -/
theorem pyIsLower_no_upper (l : List Char) (h : pyIsLower l = true) :
    ∀ c ∈ l, isAsciiUpper c = false := by
  simp only [pyIsLower, Bool.and_eq_true, Bool.not_eq_true', List.any_eq_false] at h
  exact fun c hc => by simpa using h.2 c hc

/-- A string of identifier characters whose head is a letter or an
underscore, and whose head is not a lowercase letter whenever the whole
string is all-lowercase, is a fixed point of identifier synthesis. -/
theorem labelToNameCore_fixed (c0 : Char) (rest : List Char)
    (hgood : ∀ c ∈ c0 :: rest, goodChar c = true)
    (hhead : isAsciiAlpha c0 = true ∨ c0 = '_')
    (hlow : pyIsLower (c0 :: rest) = true → isAsciiLower c0 = false) :
    labelToNameCore (c0 :: rest) = some (c0 :: rest) := by
  have hstrip : stripParens (c0 :: rest) = c0 :: rest :=
    stripParens_no_paren _ (paren_not_mem_good _ hgood)
  have hfilter : (c0 :: rest).filter keepChar = c0 :: rest :=
    List.filter_eq_self.mpr (fun c hc => keepChar_of_good c (hgood c hc))
  have hsplit : splitWs (c0 :: rest) = [c0 :: rest] :=
    splitWs_no_space _ (by simp) (fun c hc => good_not_space c (hgood c hc))
  have hword : processWord (c0 :: rest) = c0 :: rest := by
    unfold processWord
    split_ifs with hl
    · have hup : asciiUpper c0 = c0 := asciiUpper_of_not_lower c0 (hlow hl)
      have hrest : rest.map asciiLower = rest :=
        map_id_of_mem _ _ (fun c hc => asciiLower_of_not_upper c
          (pyIsLower_no_upper _ hl c (List.mem_cons_of_mem _ hc)))
      simp [pyCapitalize, hup, hrest]
    · rfl
  have hflat : ((splitWs ((stripParens (c0 :: rest)).filter keepChar)).map
      processWord).flatten = c0 :: rest := by
    rw [hstrip, hfilter, hsplit]
    simp [hword]
  have hcond : (isAsciiAlpha c0 || decide (c0 = '_')) = true := by
    rcases hhead with h | h <;> simp [h]
  unfold labelToNameCore
  rw [if_neg (by simp : ¬(c0 :: rest = []))]
  simp only [hflat, hcond, if_true]
  rw [if_neg (by simp : ¬(c0 :: rest = []))]

/-- Every character of the concatenated processed words of any label is an
identifier character: the keep filter leaves only identifier characters and
whitespace, splitting removes the whitespace, and word processing only
re-cases letters. -/
theorem flatten_chars_good (label : List Char) :
    ∀ c ∈ ((splitWs ((stripParens label).filter keepChar)).map processWord).flatten,
      goodChar c = true := by
  intro c hc
  rcases List.mem_flatten.1 hc with ⟨w', hw', hcw'⟩
  rcases List.mem_map.1 hw' with ⟨w, hw, rfl⟩
  refine mem_processWord_good w ?_ c hcw'
  intro d hd
  have hmem := splitWs_mem_chars _ w hw d hd
  exact good_of_keep_not_space d (List.of_mem_filter hmem.1) hmem.2

/-- If the concatenation of the processed words is all-lowercase, its head is
not a lowercase letter: an all-lowercase first word got capitalized, and a
first word left alone either had no cased character at its head or carried an
uppercase character into the concatenation. -/
theorem flatten_head_not_lower (W : List (List Char)) (c3 : Char) (rest3 : List Char)
    (hwne : ∀ w ∈ W, w ≠ [])
    (hFL : (W.map processWord).flatten = c3 :: rest3)
    (hnl : pyIsLower (c3 :: rest3) = true) :
    isAsciiLower c3 = false := by
  cases W with
  | nil => cases hFL
  | cons w0 W' =>
    simp only [List.map_cons, List.flatten_cons] at hFL
    cases hw0 : w0 with
    | nil => exact absurd hw0 (hwne w0 (by simp))
    | cons d0 w0' =>
      subst hw0
      by_cases hlow : pyIsLower (d0 :: w0') = true
      · have hcap : processWord (d0 :: w0') = asciiUpper d0 :: w0'.map asciiLower := by
          unfold processWord
          rw [if_pos hlow]
          rfl
        rw [hcap, List.cons_append] at hFL
        have hc3 : c3 = asciiUpper d0 := (List.cons.injEq _ _ _ _ ▸ hFL).1.symm
        subst hc3
        by_cases hd0 : isAsciiLower d0 = true
        · exact not_lower_of_upper _ (isAsciiUpper_asciiUpper d0 hd0)
        · rw [asciiUpper_of_not_lower d0 (by simpa using hd0)]
          simpa using hd0
      · have hid : processWord (d0 :: w0') = d0 :: w0' := by
          unfold processWord
          rw [if_neg hlow]
        rw [hid, List.cons_append] at hFL
        have hc3 : d0 = c3 := (List.cons.injEq _ _ _ _ ▸ hFL).1
        by_cases hup : (d0 :: w0').any isAsciiUpper = true
        · obtain ⟨u, hu, hupu⟩ := List.any_eq_true.1 hup
          have humem : u ∈ c3 :: rest3 := by
            rw [← hFL]
            rcases List.mem_cons.1 hu with he | hm
            · exact he ▸ List.mem_cons_self _ _
            · exact List.mem_cons_of_mem _ (List.mem_append_left _ hm)
          have := pyIsLower_no_upper _ hnl u humem
          rw [hupu] at this
          cases this
        · have hlowany : (d0 :: w0').any isAsciiLower = false := by
            cases ha : (d0 :: w0').any isAsciiLower
            · rfl
            · exfalso
              apply hlow
              simp only [pyIsLower, ha, Bool.true_and, Bool.not_eq_true']
              simpa using hup
          rw [← hc3]
          have := List.any_eq_false.1 hlowany d0 (by simp)
          simpa using this

/-- C10: identifier synthesis is idempotent on its own output.  Whenever
`label_to_name` returns a name, running it again on that name returns the
name unchanged: the synthesized name consists only of letters, digits and
underscores (so parenthesis stripping, the character filter and whitespace
splitting leave it whole), it starts with a letter or an underscore (so no
further underscore is prefixed), and its first character is never a lowercase
letter when the name is all-lowercase (so capitalization fixes it). -/
theorem c10_label_to_name_idempotent (label n : List Char)
    (h : labelToNameCore label = some n) :
    labelToNameCore n = some n := by
  by_cases hl : label = []
  · rw [labelToNameCore, if_pos hl] at h
    cases h
  · rw [labelToNameCore, if_neg hl] at h
    simp only [] at h
    cases hFL : ((splitWs ((stripParens label).filter keepChar)).map
        processWord).flatten with
    | nil =>
      rw [hFL] at h
      simp at h
    | cons c3 rest3 =>
      rw [hFL] at h
      have hgood3 : ∀ c ∈ c3 :: rest3, goodChar c = true := by
        rw [← hFL]
        exact flatten_chars_good label
      have hwne : ∀ w ∈ splitWs ((stripParens label).filter keepChar), w ≠ [] :=
        fun w hw => splitWs_words_ne_nil _ w hw
      by_cases hc : (isAsciiAlpha c3 || decide (c3 = '_')) = true
      · simp only [hc, if_true] at h
        simp only [reduceCtorEq, if_neg, ne_eq, not_false_eq_true,
          Option.some.injEq] at h
        subst h
        refine labelToNameCore_fixed c3 rest3 hgood3 ?_ ?_
        · simpa using hc
        · exact fun hpl => flatten_head_not_lower _ c3 rest3 hwne hFL hpl
      · have hc' : (isAsciiAlpha c3 || decide (c3 = '_')) = false := by
          simpa using hc
        simp only [hc', Bool.false_eq_true, if_false] at h
        simp only [reduceCtorEq, if_neg, ne_eq, not_false_eq_true,
          Option.some.injEq] at h
        subst h
        refine labelToNameCore_fixed '_' (c3 :: rest3) ?_ (Or.inr rfl)
          (fun _ => by decide)
        intro c hcm
        rcases List.mem_cons.1 hcm with he | hm
        · subst he
          decide
        · exact hgood3 c hm

/-- Witness for C10 at the label `2nd Lien`, whose synthesized name
`_2ndLien` re-synthesizes to itself. -/
theorem c10_label_to_name_idempotent_witness :
    labelToNameCore ("_2ndLien".toList) = some ("_2ndLien".toList) :=
  c10_label_to_name_idempotent ("2nd Lien".toList) ("_2ndLien".toList) rfl
